import Mathlib

/-!
Shallow embedding of the ArcPro stationing pipeline
(Stationizer_v1.py, Stationizer_v2.py, Connection_line_generator.py,
curvy_line_generator.py).

Distances are modelled as exact rationals, feature collections as lists,
and the external geometry service (arcpy / shapely) is instantiated on
straight horizontal route segments with integer coordinates, where all the
predicates the scripts use (distance zero, measure along the line,
flat-capped buffering, containment) are exact integer arithmetic.
-/

/-- Decimal digit characters of a natural number, most significant first.
The fuel argument makes the recursion structural; every use passes fuel
larger than the number of digits, and the digits produced are exactly the
decimal rendering Python uses for a non-negative integer. -/
def decChars (fuel : ℕ) (n : ℕ) : List Char :=
  match fuel with
  | 0 => []
  | fuel + 1 =>
      if n < 10 then [Nat.digitChar n]
      else decChars fuel (n / 10) ++ [Nat.digitChar (n % 10)]

/-- Decimal rendering of a natural number. -/
def decimalStr (n : ℕ) : String :=
  String.mk (decChars (n + 1) n)

/-- Decimal rendering of an integer, matching Python `str` on `int`. -/
def intDecimalStr (n : ℤ) : String :=
  if 0 ≤ n then decimalStr n.toNat else "-" ++ decimalStr n.natAbs

/-- Embedding of the Python format directive `{x:02d}`: left-pad the decimal
rendering with zeros to a minimum width of two characters. -/
def pad2 (n : ℤ) : String :=
  if (intDecimalStr n).length = 1 then "0" ++ intDecimalStr n else intDecimalStr n

/-- Embedding of Python `round` on an exact rational value: round half to
even.  The fractional part of `q` above its floor `q.num.fdiv q.den` is
compared against one half by cross-multiplication, so the whole function is
integer arithmetic and evaluates inside the kernel.  The lemma
`pythonRound_eq` below restates it through `Int.floor` and `Even`. -/
def pythonRound (q : ℚ) : ℤ :=
  if 2 * (q.num - q.num.fdiv q.den * q.den) < (q.den : ℤ) then q.num.fdiv q.den
  else if (q.den : ℤ) < 2 * (q.num - q.num.fdiv q.den * q.den) then q.num.fdiv q.den + 1
  else if (q.num.fdiv q.den).fmod 2 = 0 then q.num.fdiv q.den else q.num.fdiv q.den + 1

/-- format_station from Stationizer_v1.py and Stationizer_v2.py (lines
123-134): round the distance, split into hundreds (Python floor division)
and remainder (Python modulo), and render both with the Python format
directive for two zero-padded digits, joined by a plus sign. -/
def format_station (distance_ft : ℚ) : String :=
  let dist_rounded := pythonRound distance_ft
  let hundreds := dist_rounded.fdiv 100
  let remainder := dist_rounded.fmod 100
  pad2 hundreds ++ "+" ++ pad2 remainder

theorem fdiv_num_den_eq_floor (q : ℚ) : q.num.fdiv q.den = ⌊q⌋ := by
  rw [Int.fdiv_eq_ediv _ (by positivity), ← Rat.floor_def]

theorem sub_floor_eq_div (q : ℚ) :
    q - ⌊q⌋ = ((q.num - ⌊q⌋ * q.den : ℤ) : ℚ) / (q.den : ℚ) := by
  have h0 : (0 : ℚ) < (q.den : ℚ) := by exact_mod_cast q.den_pos
  have hnum : (q.num : ℚ) = q * (q.den : ℚ) :=
    (div_eq_iff (ne_of_gt h0)).mp (Rat.num_div_den q)
  rw [eq_div_iff (ne_of_gt h0)]
  push_cast
  rw [hnum]; ring

theorem pythonRound_eq (q : ℚ) :
    pythonRound q =
      if q - ⌊q⌋ < 1/2 then ⌊q⌋
      else if (1 : ℚ)/2 < q - ⌊q⌋ then ⌊q⌋ + 1
      else if Even ⌊q⌋ then ⌊q⌋ else ⌊q⌋ + 1 := by
  have h0 : (0 : ℚ) < (q.den : ℚ) := by exact_mod_cast q.den_pos
  have hlt : (2 * (q.num - ⌊q⌋ * q.den) < (q.den : ℤ)) ↔ q - ⌊q⌋ < 1/2 := by
    rw [sub_floor_eq_div, div_lt_div_iff₀ h0 (by norm_num : (0:ℚ) < 2)]
    constructor
    · intro h
      have h2 : ((2 * (q.num - ⌊q⌋ * q.den) : ℤ) : ℚ) < ((q.den : ℤ) : ℚ) := by
        exact_mod_cast h
      push_cast at h2 ⊢
      linarith
    · intro h
      have h2 : ((2 * (q.num - ⌊q⌋ * q.den) : ℤ) : ℚ) < ((q.den : ℤ) : ℚ) := by
        push_cast at h ⊢
        linarith
      exact_mod_cast h2
  have hgt : ((q.den : ℤ) < 2 * (q.num - ⌊q⌋ * q.den)) ↔ (1 : ℚ)/2 < q - ⌊q⌋ := by
    rw [sub_floor_eq_div, div_lt_div_iff₀ (by norm_num : (0:ℚ) < 2) h0]
    constructor
    · intro h
      have h2 : (((q.den : ℤ)) : ℚ) < ((2 * (q.num - ⌊q⌋ * q.den) : ℤ) : ℚ) := by
        exact_mod_cast h
      push_cast at h2 ⊢
      linarith
    · intro h
      have h2 : (((q.den : ℤ)) : ℚ) < ((2 * (q.num - ⌊q⌋ * q.den) : ℤ) : ℚ) := by
        push_cast at h ⊢
        linarith
      exact_mod_cast h2
  have heven : (⌊q⌋.fmod 2 = 0) ↔ Even ⌊q⌋ := by
    rw [Int.fmod_eq_emod _ (by norm_num)]
    exact Int.even_iff.symm
  unfold pythonRound
  rw [fdiv_num_den_eq_floor]
  exact if_congr hlt rfl (if_congr hgt rfl (if_congr heven rfl rfl))

example : format_station 0 = "00+00" := by decide
example : format_station (mkRat 91521 1000) = "00+92" := by decide
example : format_station (mkRat 124836 1000) = "01+25" := by decide
example : format_station 10000 = "100+00" := by decide
example : format_station (mkRat 301 2) = "01+50" := by decide
example : format_station (mkRat 303 2) = "01+52" := by decide
example : ((91.521 : ℚ)) = mkRat 91521 1000 := by norm_num [Rat.mkRat_eq_div]

theorem decChars_ne_nil (fuel n : ℕ) (h : 0 < fuel) : decChars fuel n ≠ [] := by
  cases fuel with
  | zero => omega
  | succ fuel =>
      simp only [decChars]
      split
      · simp
      · simp

theorem decChars_single (fuel n : ℕ) (h : 0 < fuel) (hn : n < 10) :
    decChars fuel n = [Nat.digitChar n] := by
  cases fuel with
  | zero => omega
  | succ fuel => simp [decChars, hn]

theorem length_decimalStr_of_lt_ten (n : ℕ) (h : n < 10) : (decimalStr n).length = 1 := by
  rw [decimalStr, String.length_mk, decChars_single _ _ (by omega) h]
  rfl

theorem length_decimalStr_ge_one (n : ℕ) : 1 ≤ (decimalStr n).length := by
  rw [decimalStr, String.length_mk]
  have := decChars_ne_nil (n + 1) n (by omega)
  cases hc : decChars (n + 1) n with
  | nil => exact absurd hc this
  | cons a l => simp

theorem length_decimalStr_le_two (n : ℕ) (h : n < 100) : (decimalStr n).length ≤ 2 := by
  rw [decimalStr, String.length_mk]
  by_cases hn : n < 10
  · rw [decChars_single _ _ (by omega) hn]; simp
  · simp only [decChars, hn, if_false]
    rw [decChars_single n (n / 10) (by omega) (by omega)]
    simp

theorem pad2_length_ge_two (m : ℤ) (h0 : 0 ≤ m) : 2 ≤ (pad2 m).length := by
  rw [pad2]
  split
  · rename_i h1
    rw [String.length_append, h1]
    rfl
  · rename_i h1
    have hi : intDecimalStr m = decimalStr m.toNat := by rw [intDecimalStr, if_pos h0]
    have := length_decimalStr_ge_one m.toNat
    rw [hi] at h1 ⊢
    omega

theorem pad2_length_eq_two (m : ℤ) (h0 : 0 ≤ m) (h99 : m ≤ 99) : (pad2 m).length = 2 := by
  rw [pad2]
  split
  · rename_i h1
    rw [String.length_append, h1]
    rfl
  · rename_i h1
    have hi : intDecimalStr m = decimalStr m.toNat := by rw [intDecimalStr, if_pos h0]
    have hge := length_decimalStr_ge_one m.toNat
    have hle := length_decimalStr_le_two m.toNat (by omega)
    rw [hi] at h1 ⊢
    omega

theorem pythonRound_nonneg (q : ℚ) (h : 0 ≤ q) : 0 ≤ pythonRound q := by
  have hfl : 0 ≤ ⌊q⌋ := Int.le_floor.mpr (by exact_mod_cast h)
  rw [pythonRound_eq]
  split_ifs <;> omega

/-- Claim C1: for every non-negative distance, the station label splits the
rounded distance into hundreds by Python floor division and remainder by
Python modulo, the remainder lies in [0,99], both components are rendered
zero-padded to at least two characters joined by a plus sign, and the four
example labels from the specification are produced. -/
theorem format_station_decomposes :
    (∀ d : ℚ, 0 ≤ d →
      0 ≤ (pythonRound d).fmod 100 ∧ (pythonRound d).fmod 100 ≤ 99 ∧
      format_station d =
        pad2 ((pythonRound d).fdiv 100) ++ "+" ++ pad2 ((pythonRound d).fmod 100) ∧
      2 ≤ (pad2 ((pythonRound d).fdiv 100)).length ∧
      (pad2 ((pythonRound d).fmod 100)).length = 2) ∧
    format_station 0 = "00+00" ∧ format_station 91.521 = "00+92" ∧
    format_station 124.836 = "01+25" ∧ format_station 10000 = "100+00" := by
  refine ⟨fun d hd => ?_, by decide, ?_, ?_, by decide⟩
  · have hr : 0 ≤ pythonRound d := pythonRound_nonneg d hd
    have hm0 : 0 ≤ (pythonRound d).fmod 100 := Int.fmod_nonneg hr (by norm_num)
    have hm99 : (pythonRound d).fmod 100 < 100 := Int.fmod_lt_of_pos _ (by norm_num)
    have hdn : 0 ≤ (pythonRound d).fdiv 100 := Int.fdiv_nonneg hr (by norm_num)
    exact ⟨hm0, by omega, rfl, pad2_length_ge_two _ hdn, pad2_length_eq_two _ hm0 (by omega)⟩
  · have h : (91.521 : ℚ) = mkRat 91521 1000 := by norm_num [Rat.mkRat_eq_div]
    rw [h]; decide
  · have h : (124.836 : ℚ) = mkRat 124836 1000 := by norm_num [Rat.mkRat_eq_div]
    rw [h]; decide

theorem format_station_decomposes_witness :
    (0 : ℚ) ≤ 250 ∧
    (0 ≤ (pythonRound 250).fmod 100 ∧ (pythonRound 250).fmod 100 ≤ 99 ∧
      format_station 250 =
        pad2 ((pythonRound 250).fdiv 100) ++ "+" ++ pad2 ((pythonRound 250).fmod 100) ∧
      2 ≤ (pad2 ((pythonRound 250).fdiv 100)).length ∧
      (pad2 ((pythonRound 250).fmod 100)).length = 2) :=
  ⟨by decide, format_station_decomposes.1 250 (by decide)⟩

/-- Claim C10: station rounding is round-half-to-even: a distance exactly
halfway between two whole units rounds to the even neighbour before the
label is built, so station(150.5) is 01+50 while station(151.5) is 01+52. -/
theorem format_station_rounds_half_to_even :
    (∀ k : ℤ, pythonRound ((k : ℚ) + 1/2) = (if Even k then k else k + 1) ∧
      Even (pythonRound ((k : ℚ) + 1/2))) ∧
    format_station 150.5 = "01+50" ∧ format_station 151.5 = "01+52" := by
  refine ⟨fun k => ?_, ?_, ?_⟩
  · have hfl : ⌊(k : ℚ) + 1/2⌋ = k := by
      rw [add_comm, Int.floor_add_int]
      norm_num
    have hr : (k : ℚ) + 1/2 - (k : ℤ) = 1/2 := by ring
    have hval : pythonRound ((k : ℚ) + 1/2) = if Even k then k else k + 1 := by
      rw [pythonRound_eq, hfl, hr]
      simp [lt_irrefl]
    refine ⟨hval, ?_⟩
    rw [hval]
    by_cases he : Even k
    · simp [he]
    · simpa [he] using Int.even_add_one.mpr he
  · have h : (150.5 : ℚ) = mkRat 301 2 := by norm_num [Rat.mkRat_eq_div]
    rw [h]; decide
  · have h : (151.5 : ℚ) = mkRat 303 2 := by norm_num [Rat.mkRat_eq_div]
    rw [h]; decide

/-- Record of an asset point after the Near analysis: object id, the
optional ConnectionNum correlation field, and the computed distance to the
route. -/
structure NearPoint where
  objectId : ℤ
  connectionNum : Option ℤ
  nearDist : ℚ
deriving DecidableEq

/-- Modelled from the spec: the optional maximum projection distance of the
PointProjector applied as the selection filter; the script instantiates it
only with the fixed value 50. -/
def select_points_within_dist (t : ℚ) (pts : List NearPoint) : List NearPoint :=
  pts.filter (fun p => p.nearDist ≤ t)

/-- select_points_within_50ft from Stationizer_v1.py and Stationizer_v2.py
lines 18-24: keep the points whose NEAR_DIST is at most 50. -/
def select_points_within_50ft (pts : List NearPoint) : List NearPoint :=
  pts.filter (fun p => p.nearDist ≤ 50)

/-- Claim C6: the selection used by the scripts is the threshold filter at
the default of 50 units, and under any non-negative threshold a point whose
nearest distance is exactly zero is always retained. -/
theorem point_on_route_always_retained :
    select_points_within_50ft = select_points_within_dist 50 ∧
    ∀ (t : ℚ), 0 ≤ t → ∀ (pts : List NearPoint) (p : NearPoint),
      p ∈ pts → p.nearDist = 0 → p ∈ select_points_within_dist t pts := by
  refine ⟨rfl, fun t ht pts p hp h0 => ?_⟩
  rw [select_points_within_dist, List.mem_filter]
  refine ⟨hp, ?_⟩
  rw [h0]
  exact decide_eq_true ht

theorem point_on_route_always_retained_witness :
    (0 : ℚ) ≤ 7 ∧
    (⟨1, none, 0⟩ : NearPoint) ∈ [(⟨1, none, 0⟩ : NearPoint)] ∧
    (⟨1, none, 0⟩ : NearPoint).nearDist = 0 ∧
    (⟨1, none, 0⟩ : NearPoint) ∈ select_points_within_dist 7 [⟨1, none, 0⟩] :=
  ⟨by decide, by decide, by decide,
    point_on_route_always_retained.2 7 (by decide) _ _ (by decide) (by decide)⟩

/-- Asset point record for the preparation step: stable object id, the
ConnectionNum correlation field, the point geometry, and the Near result. -/
structure PtRec where
  objectId : ℤ
  connectionNum : Option ℤ
  geom : ℤ × ℤ
  nearDist : ℚ
deriving DecidableEq

/-- A point feature class: whether the ConnectionNum field exists on the
class, together with its point records. -/
structure PointFC where
  hasConnectionNum : Bool
  points : List PtRec
deriving DecidableEq

/-- prepare_point_data_and_run_near from Stationizer_v1.py and
Stationizer_v2.py lines 6-16: when the ConnectionNum field is absent it is
added and populated with each object id, otherwise nothing is assigned;
then the Near analysis recomputes the nearest distance of every point from
its geometry (the deterministic geometry service is the parameter
`near`). -/
def prepare_point_data_and_run_near (near : ℤ × ℤ → ℚ) (fc : PointFC) : PointFC :=
  let fc1 :=
    if fc.hasConnectionNum then fc
    else ⟨true, fc.points.map (fun p => { p with connectionNum := some p.objectId })⟩
  ⟨fc1.hasConnectionNum, fc1.points.map (fun p => { p with nearDist := near p.geom })⟩

/-- Claim C7: correlation id assignment is idempotent: running the
preparation step twice yields the same feature class as running it once,
and when the ConnectionNum field is already present every stored id is left
unchanged. -/
theorem prepare_point_data_idempotent :
    (∀ (near : ℤ × ℤ → ℚ) (fc : PointFC),
      prepare_point_data_and_run_near near (prepare_point_data_and_run_near near fc)
        = prepare_point_data_and_run_near near fc) ∧
    (∀ (near : ℤ × ℤ → ℚ) (fc : PointFC), fc.hasConnectionNum = true →
      (prepare_point_data_and_run_near near fc).points.map PtRec.connectionNum
        = fc.points.map PtRec.connectionNum) := by
  constructor
  · intro near fc
    cases hb : fc.hasConnectionNum <;>
      simp [prepare_point_data_and_run_near, hb, List.map_map, Function.comp]
  · intro near fc h
    simp [prepare_point_data_and_run_near, h, List.map_map, Function.comp]

theorem prepare_point_data_idempotent_witness :
    (prepare_point_data_and_run_near (fun _ => 0)
        ⟨true, [⟨1, some 5, (0, 0), 3⟩]⟩).points.map PtRec.connectionNum
      = (⟨true, [⟨1, some 5, (0, 0), 3⟩]⟩ : PointFC).points.map PtRec.connectionNum :=
  prepare_point_data_idempotent.2 (fun _ => 0) ⟨true, [⟨1, some 5, (0, 0), 3⟩]⟩ rfl

/-- A planar point with integer coordinates. -/
abbrev Pt := ℤ × ℤ

/-- A horizontal route polyline running from (x1, y) to (x2, y). -/
structure HSeg where
  x1 : ℤ
  x2 : ℤ
  y : ℤ
deriving DecidableEq

/-- An axis-aligned rectangle, the shape of a flat-capped buffer around a
horizontal segment. -/
structure Rect where
  xmin : ℤ
  xmax : ℤ
  ymin : ℤ
  ymax : ℤ
deriving DecidableEq

/-- The flat-capped radius-50 buffer around a horizontal segment (the
shapely call buffer(50, cap_style=2)): flat caps do not extend past the
segment ends, so the region is exactly the segment widened by 50. -/
def bufferRect (s : HSeg) : Rect := ⟨s.x1, s.x2, s.y - 50, s.y + 50⟩

/-- create_shapely_buffer from Stationizer_v1.py and Stationizer_v2.py
lines 55-93: the cursor over the route feature class breaks after the
first row, so only the first route geometry is buffered. -/
def create_shapely_buffer (lines : List HSeg) : Option Rect :=
  lines.head?.map bufferRect

/-- A candidate feature, represented by the finite list of its points. -/
abbrev Feature := List Pt

/-- Strict interior membership in a rectangle. -/
def strictlyInside (p : Pt) (r : Rect) : Bool :=
  decide (r.xmin < p.1 ∧ p.1 < r.xmax ∧ r.ymin < p.2 ∧ p.2 < r.ymax)

/-- Closed membership in a rectangle (interior or boundary). -/
def inClosed (p : Pt) (r : Rect) : Bool :=
  decide (r.xmin ≤ p.1 ∧ p.1 ≤ r.xmax ∧ r.ymin ≤ p.2 ∧ p.2 ≤ r.ymax)

/-- The COMPLETELY_WITHIN predicate of SelectLayerByLocation on the
rectangle model: every point of the feature lies strictly inside the
region, so a feature merely touching the boundary is not completely
within. -/
def completelyWithin (f : Feature) (r : Rect) : Bool :=
  f.all (fun p => strictlyInside p r)

/-- delete_features_outside_buffer from Stationizer_v1.py and
Stationizer_v2.py lines 95-121: build the buffer of the first route
geometry, then in every candidate feature class select the features NOT
completely within it (inverted spatial relationship) and delete them,
keeping exactly the completely-within features. -/
def delete_features_outside_buffer (lines : List HSeg) (fcs : List (List Feature)) :
    List (List Feature) :=
  match create_shapely_buffer lines with
  | some r => fcs.map (fun fc => fc.filter (fun f => completelyWithin f r))
  | none => fcs

/-- Squared distance from a point to a horizontal segment. -/
def distSqToSeg (p : Pt) (s : HSeg) : ℤ :=
  (max 0 (max (s.x1 - p.1) (p.1 - s.x2)))^2 + (p.2 - s.y)^2

/-- Within 50 units of a horizontal segment. -/
def within50OfSeg (p : Pt) (s : HSeg) : Bool :=
  decide (distSqToSeg p s ≤ 2500)

theorem strictlyInside_imp_inClosed (p : Pt) (r : Rect)
    (h : strictlyInside p r = true) : inClosed p r = true := by
  simp only [strictlyInside, inClosed, decide_eq_true_eq] at h ⊢
  omega

/-- Claim C4: a candidate feature is kept by the corridor filter exactly
when it is completely within the buffer polygon: a feature whose points all
lie strictly inside is kept, while a feature with any point outside the
closed buffer (fully outside or straddling) and a feature with a point on
the buffer boundary (merely touching) are removed. -/
theorem corridor_filter_keeps_only_completely_within (l : HSeg) (rest : List HSeg)
    (fc : List Feature) (f : Feature) (hf : f ∈ fc) :
    delete_features_outside_buffer (l :: rest) [fc]
      = [fc.filter (fun g => completelyWithin g (bufferRect l))] ∧
    (f ∈ fc.filter (fun g => completelyWithin g (bufferRect l))
      ↔ ∀ p ∈ f, strictlyInside p (bufferRect l) = true) ∧
    ((∃ p ∈ f, inClosed p (bufferRect l) = false) →
      f ∉ fc.filter (fun g => completelyWithin g (bufferRect l))) ∧
    ((∃ p ∈ f, inClosed p (bufferRect l) = true ∧ strictlyInside p (bufferRect l) = false) →
      f ∉ fc.filter (fun g => completelyWithin g (bufferRect l))) := by
  have hiff : f ∈ fc.filter (fun g => completelyWithin g (bufferRect l))
      ↔ ∀ p ∈ f, strictlyInside p (bufferRect l) = true := by
    rw [List.mem_filter, completelyWithin, List.all_eq_true]
    exact ⟨fun h => h.2, fun h => ⟨hf, h⟩⟩
  refine ⟨rfl, hiff, ?_, ?_⟩
  · rintro ⟨p, hp, hpc⟩ hmem
    have := strictlyInside_imp_inClosed p (bufferRect l) (hiff.mp hmem p hp)
    rw [this] at hpc
    exact Bool.noConfusion hpc
  · rintro ⟨p, hp, -, hps⟩ hmem
    have := hiff.mp hmem p hp
    rw [this] at hps
    exact Bool.noConfusion hps

theorem corridor_filter_keeps_only_completely_within_witness :
    ([((50 : ℤ), (50 : ℤ))] : Feature)
      ∉ ([[((50 : ℤ), (50 : ℤ))]] : List Feature).filter
          (fun g => completelyWithin g (bufferRect ⟨0, 100, 0⟩)) :=
  (corridor_filter_keeps_only_completely_within ⟨0, 100, 0⟩ [] _ _ (by decide)).2.2.2
    ⟨(50, 50), by decide, by decide, by decide⟩

/-- Claim C8: the corridor buffer is built from only the first route
geometry returned by the cursor, so a feature entirely within 50 units of a
later route polyline that is not completely within the first polyline's
buffer is deleted by the corridor filter. -/
theorem corridor_buffer_uses_first_geometry_only (l1 : HSeg) (rest : List HSeg)
    (l : HSeg) (_hl : l ∈ rest) (fc : List Feature) (f : Feature) (_hf : f ∈ fc)
    (_hnear : ∀ p ∈ f, within50OfSeg p l = true)
    (hout : completelyWithin f (bufferRect l1) = false) :
    create_shapely_buffer (l1 :: rest) = some (bufferRect l1) ∧
    delete_features_outside_buffer (l1 :: rest) [fc]
      = [fc.filter (fun g => completelyWithin g (bufferRect l1))] ∧
    f ∉ fc.filter (fun g => completelyWithin g (bufferRect l1)) := by
  refine ⟨rfl, rfl, fun hmem => ?_⟩
  rw [List.mem_filter] at hmem
  rw [hmem.2] at hout
  exact Bool.noConfusion hout

theorem corridor_buffer_uses_first_geometry_only_witness :
    ([((1050 : ℤ), (0 : ℤ))] : Feature)
      ∉ ([[((1050 : ℤ), (0 : ℤ))]] : List Feature).filter
          (fun g => completelyWithin g (bufferRect ⟨0, 100, 0⟩)) :=
  (corridor_buffer_uses_first_geometry_only ⟨0, 100, 0⟩ [⟨1000, 1100, 0⟩] ⟨1000, 1100, 0⟩
    (by decide) _ _ (by decide) (by decide) (by decide)).2.2

/-- Point-on-segment test for a horizontal segment: the arcpy distanceTo
comparison against zero. -/
def onSeg (p : Pt) (s : HSeg) : Bool :=
  decide (p.2 = s.y ∧ s.x1 ≤ p.1 ∧ p.1 ≤ s.x2)

/-- Owning-route resolution inside generate_segments (Stationizer_v1.py
lines 168-181): with a single route polyline use it directly, otherwise
take the first polyline at distance exactly zero from the point. -/
def resolveLine (lines : List HSeg) (p : Pt) : Option HSeg :=
  if lines.length = 1 then lines.head?
  else lines.find? (fun l => onSeg p l)

/-- measureOnLine for a horizontal segment: arc length from the start
vertex to the position of the point projected onto the line. -/
def measureOnLine (s : HSeg) (p : Pt) : ℤ :=
  min (max p.1 s.x1) s.x2 - s.x1

/-- segmentAlongLine from position 0 to position d of a horizontal
segment. -/
def segmentAlongLine (s : HSeg) (d : ℤ) : HSeg := ⟨s.x1, s.x1 + d, s.y⟩

/-- Geometric length of a horizontal segment. -/
def segLength (s : HSeg) : ℤ := s.x2 - s.x1

/-- The row generate_segments inserts for one snapped point, when its
owning route resolves: the sub-line from the route start to the measured
distance, with the station label of its length. -/
def segmentFor (lines : List HSeg) (p : Pt) : Option (HSeg × String) :=
  (resolveLine lines p).map (fun l =>
    (segmentAlongLine l (measureOnLine l p),
      format_station ((segLength (segmentAlongLine l (measureOnLine l p)) : ℤ) : ℚ)))

/-- generate_segments from Stationizer_v1.py lines 136-191 (the insertion
loop): for each snapped point in order, resolve the owning route; an
unresolvable point hits `continue` with no other effect; for a resolved
route, insert the sub-line from the start to the measured distance
together with its station label. -/
def generate_segments (lines : List HSeg) (points : List Pt) : List (HSeg × String) :=
  points.foldl (fun acc p =>
    match resolveLine lines p with
    | none => acc
    | some l => acc ++ [(segmentAlongLine l (measureOnLine l p),
        format_station ((segLength (segmentAlongLine l (measureOnLine l p)) : ℤ) : ℚ))]) []

theorem foldl_optionInsert {α β : Type} (f : α → Option β) :
    ∀ (xs : List α) (acc : List β),
      xs.foldl (fun acc x => acc ++ (f x).toList) acc = acc ++ xs.filterMap f := by
  intro xs
  induction xs with
  | nil => intro acc; simp
  | cons x t ih =>
      intro acc
      cases hf : f x with
      | none => simp [List.foldl_cons, hf, ih, List.filterMap_cons]
      | some b => simp [List.foldl_cons, hf, ih, List.filterMap_cons]

theorem generate_segments_eq (lines : List HSeg) (points : List Pt) :
    generate_segments lines points = points.filterMap (segmentFor lines) := by
  have hstep : (fun (acc : List (HSeg × String)) p =>
      match resolveLine lines p with
      | none => acc
      | some l => acc ++ [(segmentAlongLine l (measureOnLine l p),
          format_station ((segLength (segmentAlongLine l (measureOnLine l p)) : ℤ) : ℚ))])
      = (fun acc p => acc ++ (segmentFor lines p).toList) := by
    funext acc p
    cases hr : resolveLine lines p <;> simp [segmentFor, hr]
  rw [generate_segments, hstep]
  exact (foldl_optionInsert (segmentFor lines) points []).trans (List.nil_append _)

/-- Claim C5 (amended): an unresolvable point is skipped silently: it
contributes no segment, the rest of the output is unchanged, and the
remaining points are still processed; with a single route polyline that
polyline is used directly, and with several routes the owner is the first
polyline at distance exactly zero from the point. -/
theorem generate_segments_skips_unresolvable (lines : List HSeg) :
    (∀ points, generate_segments lines points = points.filterMap (segmentFor lines)) ∧
    (∀ (l : HSeg) (p : Pt), resolveLine [l] p = some l) ∧
    (∀ p, lines.length ≠ 1 → resolveLine lines p = lines.find? (fun l => onSeg p l)) ∧
    (∀ (pre post : List Pt) (p : Pt), resolveLine lines p = none →
      generate_segments lines (pre ++ p :: post) = generate_segments lines (pre ++ post)) := by
  refine ⟨generate_segments_eq lines, fun l p => rfl, fun p h => by rw [resolveLine, if_neg h],
    fun pre post p h => ?_⟩
  rw [generate_segments_eq, generate_segments_eq]
  simp [List.filterMap_append, List.filterMap_cons, segmentFor, h]

theorem generate_segments_skips_unresolvable_witness :
    resolveLine [⟨0, 100, 0⟩, ⟨200, 300, 0⟩] (150, 7) = none ∧
    generate_segments [⟨0, 100, 0⟩, ⟨200, 300, 0⟩] ([(50, 0)] ++ (150, 7) :: [])
      = generate_segments [⟨0, 100, 0⟩, ⟨200, 300, 0⟩] ([(50, 0)] ++ []) :=
  ⟨by decide,
    (generate_segments_skips_unresolvable [⟨0, 100, 0⟩, ⟨200, 300, 0⟩]).2.2.2
      [(50, 0)] [] (150, 7) (by decide)⟩

/-- Claim C5 counterexample: no skipped-count is incremented anywhere: the
skip is `continue` with no side effect, so the run that skips the
unresolvable point (150, 7) is observationally identical to the run that
never saw that point, and the whole output of the run carries no record of
the skip. -/
theorem generate_segments_skip_leaves_no_trace :
    resolveLine [⟨0, 100, 0⟩, ⟨200, 300, 0⟩] (150, 7) = none ∧
    generate_segments [⟨0, 100, 0⟩, ⟨200, 300, 0⟩] [(50, 0), (150, 7)]
      = generate_segments [⟨0, 100, 0⟩, ⟨200, 300, 0⟩] [(50, 0)] ∧
    generate_segments [⟨0, 100, 0⟩, ⟨200, 300, 0⟩] [(50, 0), (150, 7)]
      = [(⟨0, 50, 0⟩, "00+50")] :=
  ⟨by decide, by decide, by decide⟩

/-- Position tags for a list, pairing each element with its index counting
from k upward (the insertion order of the rows read by a cursor). -/
def numberFrom {α : Type} (k : ℕ) : List α → List (ℕ × α)
  | [] => []
  | a :: t => (k, a) :: numberFrom (k + 1) t

/-- The consecutive identifiers k, k+1, ..., k+n-1. -/
def idsFrom (k n : ℕ) : List ℕ :=
  match n with
  | 0 => []
  | n + 1 => k :: idsFrom (k + 1) n

/-- Python dict lookup on an association list with distinct keys. -/
def alookup (oid : ℤ) : List (ℤ × ℕ) → Option ℕ
  | [] => none
  | kv :: rest => if kv.1 = oid then some kv.2 else alookup oid rest

/-- Sort key of the Python stable ascending sort of the rows by geometric
length: a stable sort by a key is exactly the sort by the pair of the key
and the original position, compared lexicographically. -/
def lexLe (a b : ℕ × ℤ × ℚ) : Prop :=
  a.2.2 < b.2.2 ∨ (a.2.2 = b.2.2 ∧ a.1 ≤ b.1)

instance : DecidableRel lexLe := fun a b =>
  inferInstanceAs (Decidable (a.2.2 < b.2.2 ∨ (a.2.2 = b.2.2 ∧ a.1 ≤ b.1)))

instance : IsTotal (ℕ × ℤ × ℚ) lexLe :=
  ⟨fun a b => by
    rcases lt_trichotomy a.2.2 b.2.2 with h | h | h
    · exact Or.inl (Or.inl h)
    · rcases le_total a.1 b.1 with h1 | h1
      · exact Or.inl (Or.inr ⟨h, h1⟩)
      · exact Or.inr (Or.inr ⟨h.symm, h1⟩)
    · exact Or.inr (Or.inl h)⟩

instance : IsTrans (ℕ × ℤ × ℚ) lexLe :=
  ⟨fun a b c hab hbc => by
    rcases hab with h1 | ⟨h1, h1i⟩ <;> rcases hbc with h2 | ⟨h2, h2i⟩
    · exact Or.inl (h1.trans h2)
    · exact Or.inl (h2 ▸ h1)
    · exact Or.inl (h1 ▸ h2)
    · exact Or.inr ⟨h1.trans h2, h1i.trans h2i⟩⟩

/-- The stable ascending sort by length performed by rows.sort in
generate_segments of Stationizer_v2.py line 198, realised as the sort of
the position-tagged rows by the lexicographic key (length, position). -/
def sortRows (rows : List (ℤ × ℚ)) : List (ℕ × ℤ × ℚ) :=
  List.insertionSort lexLe (numberFrom 0 rows)

/-- Identifier assignment over an already sorted row list: walking the list
in order, the identifiers k+1, k+2, ... are bound to the object ids. -/
def assignFrom (k : ℕ) (s : List (ℕ × ℤ × ℚ)) : List (ℤ × ℕ) :=
  (numberFrom k s).map (fun ie => (ie.2.2.1, ie.1 + 1))

/-- The SEGMENT_ID dictionary built by generate_segments in
Stationizer_v2.py lines 200-204: the sorted rows are walked in order and
the identifiers 1, 2, ... are bound to their object ids. -/
def assignIds (rows : List (ℤ × ℚ)) : List (ℤ × ℕ) :=
  assignFrom 0 (sortRows rows)

/-- The identifier the dictionary holds for one object id (0 when absent,
which does not occur for the rows of a run). -/
def idOf (rows : List (ℤ × ℚ)) (oid : ℤ) : ℕ :=
  (alookup oid (assignIds rows)).getD 0

/-- The update-cursor pass of generate_segments in Stationizer_v2.py lines
206-209: every stored row receives the identifier of its object id. -/
def applySegmentIds (rows : List (ℤ × ℚ)) : List (ℤ × ℕ) :=
  rows.map (fun r => (r.1, idOf rows r.1))

theorem numberFrom_map_snd {α β : Type} (g : α → β) :
    ∀ (k : ℕ) (l : List α), (numberFrom k l).map (fun e => g e.2) = l.map g := by
  intro k l
  induction l generalizing k with
  | nil => rfl
  | cons a t ih => simp [numberFrom, ih]

theorem length_numberFrom {α : Type} : ∀ (k : ℕ) (l : List α),
    (numberFrom k l).length = l.length := by
  intro k l
  induction l generalizing k with
  | nil => rfl
  | cons a t ih => simp [numberFrom, ih]

theorem mem_numberFrom_snd {α : Type} :
    ∀ {k : ℕ} {l : List α} {e : ℕ × α}, e ∈ numberFrom k l → e.2 ∈ l := by
  intro k l
  induction l generalizing k with
  | nil => intro e h; exact absurd h (by simp [numberFrom])
  | cons a t ih =>
      intro e h
      rw [numberFrom, List.mem_cons] at h
      rcases h with h | h
      · simp [h]
      · exact List.mem_cons_of_mem _ (ih h)

theorem mem_numberFrom_of_mem {α : Type} :
    ∀ {a : α} {l : List α} (k : ℕ), a ∈ l → ∃ i, (i, a) ∈ numberFrom k l := by
  intro a l
  induction l with
  | nil => intro k h; exact absurd h (by simp)
  | cons b t ih =>
      intro k h
      rw [List.mem_cons] at h
      rcases h with h | h
      · exact ⟨k, by simp [numberFrom, h]⟩
      · obtain ⟨i, hi⟩ := ih (k + 1) h
        exact ⟨i, by simp [numberFrom]; exact Or.inr hi⟩

theorem alookup_assignFrom_get (s : List (ℕ × ℤ × ℚ)) :
    ∀ (k : ℕ), (s.map (fun e => e.2.1)).Nodup →
      ∀ (i : ℕ) (hi : i < s.length),
        alookup (s.get ⟨i, hi⟩).2.1 (assignFrom k s) = some (k + i + 1) := by
  induction s with
  | nil => intro k _ i hi; exact absurd hi (by simp)
  | cons a t ih =>
      intro k hnd i hi
      rw [List.map_cons, List.nodup_cons] at hnd
      cases i with
      | zero => simp [assignFrom, numberFrom, alookup]
      | succ i =>
          have hne : (t.get ⟨i, by simpa using hi⟩).2.1 ≠ a.2.1 := by
            intro he
            exact hnd.1 (he ▸ List.mem_map_of_mem (fun e => e.2.1) (t.get_mem _ _))
          have := ih (k + 1) hnd.2 i (by simpa using hi)
          simp only [assignFrom, numberFrom, List.map_cons, List.get_cons_succ, alookup]
          rw [if_neg (fun he => hne he.symm)]
          rw [show alookup (t.get ⟨i, _⟩).2.1 ((numberFrom (k + 1) t).map
            (fun ie => (ie.2.2.1, ie.1 + 1))) = some (k + 1 + i + 1) from this]
          congr 1
          omega

theorem map_alookup_assignFrom (s : List (ℕ × ℤ × ℚ)) :
    ∀ (k : ℕ), (s.map (fun e => e.2.1)).Nodup →
      s.map (fun e => (alookup e.2.1 (assignFrom k s)).getD 0) = idsFrom (k + 1) s.length := by
  induction s with
  | nil => intro k _; rfl
  | cons a t ih =>
      intro k hnd
      rw [List.map_cons, List.nodup_cons] at hnd
      have hhead : (alookup a.2.1 (assignFrom k (a :: t))).getD 0 = k + 1 := by
        simp [assignFrom, numberFrom, alookup]
      have htail : ∀ e ∈ t, (alookup e.2.1 (assignFrom k (a :: t))).getD 0
          = (alookup e.2.1 (assignFrom (k + 1) t)).getD 0 := by
        intro e he
        have hne : e.2.1 ≠ a.2.1 := by
          intro h
          exact hnd.1 (h ▸ List.mem_map_of_mem (fun e => e.2.1) he)
        simp only [assignFrom, numberFrom, List.map_cons, alookup]
        rw [if_neg (fun h => hne h.symm)]
      calc (a :: t).map (fun e => (alookup e.2.1 (assignFrom k (a :: t))).getD 0)
          = (k + 1) :: t.map (fun e => (alookup e.2.1 (assignFrom (k + 1) t)).getD 0) := by
            rw [List.map_cons, hhead]
            congr 1
            exact List.map_congr_left htail
        _ = idsFrom (k + 1) (a :: t).length := by
            rw [ih (k + 1) hnd.2]
            simp [idsFrom, length_numberFrom]

/-- Claim C2: the ordering pass of generate_segments sorts the rows
ascending by geometric length with the stable tie-break on original
insertion order and assigns SEGMENT_ID 1..N in that order, so the assigned
identifiers are a permutation of 1..N, identifiers increase with length,
ties are broken by insertion position, and the shortest segment receives
identifier 1. -/
theorem segment_ids_bijection (rows : List (ℤ × ℚ))
    (hnd : (rows.map Prod.fst).Nodup) :
    ((applySegmentIds rows).map Prod.snd).Perm (idsFrom 1 rows.length) ∧
    (∀ a ∈ numberFrom 0 rows, ∀ b ∈ numberFrom 0 rows,
      idOf rows a.2.1 < idOf rows b.2.1 → a.2.2 ≤ b.2.2) ∧
    (∀ a ∈ numberFrom 0 rows, ∀ b ∈ numberFrom 0 rows,
      a.1 < b.1 → a.2.2 = b.2.2 → idOf rows a.2.1 < idOf rows b.2.1) ∧
    (rows ≠ [] → ∃ p ∈ rows, idOf rows p.1 = 1 ∧ ∀ q ∈ rows, p.2 ≤ q.2) := by
  have hperm : (sortRows rows).Perm (numberFrom 0 rows) :=
    List.perm_insertionSort lexLe (numberFrom 0 rows)
  have hsort : List.Sorted lexLe (sortRows rows) :=
    List.sorted_insertionSort lexLe (numberFrom 0 rows)
  have hkeys : ((sortRows rows).map (fun e => e.2.1)).Nodup := by
    have h1 : (numberFrom 0 rows).map (fun e => e.2.1) = rows.map Prod.fst :=
      numberFrom_map_snd Prod.fst 0 rows
    have h2 := hperm.map (fun e => e.2.1)
    rw [h1] at h2
    exact h2.nodup_iff.mpr hnd
  have hlen : (sortRows rows).length = rows.length := by
    rw [hperm.length_eq, length_numberFrom]
  have hpos : ∀ e ∈ numberFrom 0 rows, ∃ (i : ℕ) (hi : i < (sortRows rows).length),
      (sortRows rows).get ⟨i, hi⟩ = e ∧ idOf rows e.2.1 = i + 1 := by
    intro e he
    have hs : e ∈ sortRows rows := hperm.mem_iff.mpr he
    obtain ⟨⟨i, hi⟩, hget⟩ := List.mem_iff_get.mp hs
    refine ⟨i, hi, hget, ?_⟩
    have hl := alookup_assignFrom_get (sortRows rows) 0 hkeys i hi
    rw [hget] at hl
    rw [idOf, assignIds, hl]
    simp
  have hrel : ∀ (i j : ℕ) (hi : i < (sortRows rows).length)
      (hj : j < (sortRows rows).length), i < j →
      lexLe ((sortRows rows).get ⟨i, hi⟩) ((sortRows rows).get ⟨j, hj⟩) := by
    intro i j hi hj hij
    exact List.pairwise_iff_get.mp hsort ⟨i, hi⟩ ⟨j, hj⟩ hij
  refine ⟨?_, ?_, ?_, ?_⟩
  · have e1 : (applySegmentIds rows).map Prod.snd
        = rows.map (fun r => idOf rows r.1) := by
      rw [applySegmentIds, List.map_map]
      rfl
    have e2 : rows.map (fun r => idOf rows r.1)
        = (numberFrom 0 rows).map (fun e => idOf rows e.2.1) :=
      (numberFrom_map_snd (fun r => idOf rows r.1) 0 rows).symm
    have e3 : (sortRows rows).map (fun e => idOf rows e.2.1) = idsFrom 1 rows.length := by
      have hm := map_alookup_assignFrom (sortRows rows) 0 hkeys
      rw [hlen] at hm
      exact hm
    rw [e1, e2, ← e3]
    exact (hperm.map (fun e => idOf rows e.2.1)).symm
  · intro a ha b hb hlt
    obtain ⟨i, hi, hgi, hia⟩ := hpos a ha
    obtain ⟨j, hj, hgj, hjb⟩ := hpos b hb
    rw [hia, hjb] at hlt
    have hij : i < j := by omega
    have := hrel i j hi hj hij
    rw [hgi, hgj] at this
    rcases this with h | ⟨h, _⟩
    · exact le_of_lt h
    · exact le_of_eq h
  · intro a ha b hb hab hlen2
    obtain ⟨i, hi, hgi, hia⟩ := hpos a ha
    obtain ⟨j, hj, hgj, hjb⟩ := hpos b hb
    have hij : i < j := by
      rcases lt_trichotomy i j with h | h | h
      · exact h
      · exfalso
        have hab2 : a = b := by
          rw [← hgi, ← hgj]
          congr 1
          exact Fin.ext h
        rw [hab2] at hab
        exact lt_irrefl _ hab
      · exfalso
        have hba := hrel j i hj hi h
        rw [hgi, hgj] at hba
        rcases hba with hb2 | ⟨_, hb2⟩
        · rw [hlen2] at hb2
          exact lt_irrefl _ hb2
        · omega
    rw [hia, hjb]
    omega
  · intro hne
    have h0 : 0 < (sortRows rows).length := by
      rw [hlen]
      exact List.length_pos.mpr hne
    set e := (sortRows rows).get ⟨0, h0⟩ with hedef
    have hes : e ∈ sortRows rows := (sortRows rows).get_mem _ _
    have hen : e ∈ numberFrom 0 rows := hperm.mem_iff.mp hes
    have hemem : e.2 ∈ rows := mem_numberFrom_snd hen
    have hid : idOf rows e.2.1 = 1 := by
      have hl := alookup_assignFrom_get (sortRows rows) 0 hkeys 0 h0
      rw [← hedef] at hl
      rw [idOf, assignIds, hl]
      rfl
    refine ⟨e.2, hemem, hid, ?_⟩
    intro q hq
    obtain ⟨iq, hiq⟩ := mem_numberFrom_of_mem 0 hq
    have hqs : (iq, q) ∈ sortRows rows := hperm.mem_iff.mpr hiq
    obtain ⟨⟨j, hj⟩, hgj⟩ := List.mem_iff_get.mp hqs
    cases Nat.eq_zero_or_pos j with
    | inl hj0 =>
        have : e = (iq, q) := by
          rw [hedef, ← hgj]
          congr 1
          exact Fin.ext hj0.symm
        rw [this]
    | inr hjpos =>
        have := hrel 0 j h0 hj hjpos
        rw [← hedef, hgj] at this
        rcases this with h | ⟨h, _⟩
        · exact le_of_lt h
        · exact le_of_eq h

theorem segment_ids_bijection_witness :
    ((applySegmentIds [((1 : ℤ), (10 : ℚ)), (2, 5)]).map Prod.snd).Perm
      (idsFrom 1 ([((1 : ℤ), (10 : ℚ)), (2, 5)] : List (ℤ × ℚ)).length) :=
  (segment_ids_bijection [((1 : ℤ), (10 : ℚ)), (2, 5)] (by decide)).1

theorem foldl_map_comm {α β : Type} (step : α → β → β) :
    ∀ (ws : List α) (ts : List β),
      ws.foldl (fun acc w => acc.map (step w)) ts
        = ts.map (fun t => ws.foldl (fun c w => step w c) t) := by
  intro ws
  induction ws with
  | nil => intro ts; simp
  | cons w rest ih =>
      intro ts
      rw [List.foldl_cons, ih, List.map_map]
      rfl

theorem overwrite_last {ω τ σ : Type} (hits : ω → τ → Bool) (val : ω → σ) :
    ∀ (ws : List ω) (x : τ) (v : σ),
      ws.foldl (fun (cur : τ × σ) w => if hits w cur.1 then (cur.1, val w) else cur) (x, v)
        = (x, ((((ws.filter (fun w => hits w x)).getLast?).map val).getD v)) := by
  intro ws
  induction ws with
  | nil => intro x v; rfl
  | cons w rest ih =>
      intro x v
      rw [List.foldl_cons, List.filter_cons]
      show List.foldl _ (if hits w x then (x, val w) else (x, v)) rest = _
      by_cases hw : hits w x
      · rw [if_pos hw, if_pos hw, ih x (val w)]
        cases hfl : rest.filter (fun w2 => hits w2 x) with
        | nil => rfl
        | cons y ys =>
            rw [List.getLast?_cons_cons]
            cases hg : (y :: ys).getLast? with
            | none => simp at hg
            | some z => rfl
      · rw [if_neg hw, if_neg hw, ih x v]

/-- A RouteSegments row as consumed by the cascade propagator of
Stationizer_v2.py: SEGMENT_ID, STATIONING, and the end-point geometry that
createEndPoints extracts as the last vertex of the segment. -/
structure SegRow (P : Type) where
  segId : ℤ
  stationing : String
  endPt : P

/-- The SEGMENT_ID to STATIONING dictionary built by selectionpaluza
(Stationizer_v2.py lines 277-283) by iterating the RouteSegments cursor in
storage order; its key iteration order is this insertion order. -/
def stationingDict {P : Type} (rows : List (SegRow P)) : List (ℤ × String) :=
  rows.map (fun r => (r.segId, r.stationing))

/-- createEndPoints from Stationizer_v2.py lines 213-262: one end point per
route segment, carrying its SEGMENT_ID and STATIONING. -/
def createEndPoints {P : Type} (rows : List (SegRow P)) : List (ℤ × String × P) :=
  rows.map (fun r => (r.segId, r.stationing, r.endPt))

/-- Membership of handhole geometry h in the selection one iteration of
selectionpaluza builds for segment id sid: the connection lines within one
unit of the end points with SEGMENT_ID equal to sid are selected first, and
h is selected when it is within one unit of a selected connection line.
The parameters wEL and wHL are the WITHIN_A_DISTANCE predicates of the
geometry service at one unit. -/
def cascadeHits {P L H : Type} (wEL : P → L → Bool) (wHL : H → L → Bool)
    (rows : List (SegRow P)) (connLines : List L) (sid : ℤ) (h : H) : Bool :=
  (connLines.filter (fun ln =>
      ((createEndPoints rows).filter (fun e => e.1 == sid)).any
        (fun e => wEL e.2.2 ln))).any
    (fun ln => wHL h ln)

/-- selectionpaluza from Stationizer_v2.py lines 264-312: iterate the keys
of the stationing dictionary in their insertion order (the RouteSegments
cursor order); for each segment id select its end points, the connection
lines within one unit of them, and the handholes within one unit of those
lines, overwrite the STATIONING of every selected handhole with the
dictionary value of the current id, and clear all selections before the
next id. -/
def selectionpaluza {P L H : Type} (wEL : P → L → Bool) (wHL : H → L → Bool)
    (rows : List (SegRow P)) (connLines : List L)
    (handholes : List (H × String)) : List (H × String) :=
  (stationingDict rows).foldl (fun hhs kv =>
    hhs.map (fun h =>
      if cascadeHits wEL wHL rows connLines kv.1 h.1 then (h.1, kv.2) else h)) handholes

/-- Squared distance between two integer points. -/
def distSqPP (p q : Pt) : ℤ := (p.1 - q.1)^2 + (p.2 - q.2)^2

/-- The WITHIN_A_DISTANCE predicate at one unit for point geometries. -/
def within1 (p q : Pt) : Bool := decide (distSqPP p q ≤ 1)

/-- Claim C3 (amended): the cascade processes the segments in RouteSegments
storage order (the dictionary key insertion order), and each handhole ends
with the stationing of the last segment in that storage order whose
selection cascade reaches it, its prior value when none does; the result is
a pure function of the inputs, hence deterministic across re-runs. -/
theorem selectionpaluza_last_writer {P L H : Type} (wEL : P → L → Bool)
    (wHL : H → L → Bool) (rows : List (SegRow P)) (connLines : List L)
    (handholes : List (H × String))
    (_hnd : (rows.map SegRow.segId).Nodup) :
    selectionpaluza wEL wHL rows connLines handholes
      = handholes.map (fun h =>
          (h.1, (((((stationingDict rows).filter
              (fun kv => cascadeHits wEL wHL rows connLines kv.1 h.1)).getLast?).map
                Prod.snd).getD h.2))) := by
  have h1 := foldl_map_comm
    (fun (kv : ℤ × String) (h : H × String) =>
      if cascadeHits wEL wHL rows connLines kv.1 h.1 then (h.1, kv.2) else h)
    (stationingDict rows) handholes
  refine Eq.trans h1 ?_
  apply List.map_congr_left
  intro t _
  exact overwrite_last
    (fun (kv : ℤ × String) (h : H) => cascadeHits wEL wHL rows connLines kv.1 h)
    (fun kv => kv.2) (stationingDict rows) t.1 t.2

theorem selectionpaluza_last_writer_witness :
    selectionpaluza within1 within1 [⟨1, "00+05", ((0 : ℤ), (2 : ℤ))⟩]
        [((0 : ℤ), (1 : ℤ))] [(((0 : ℤ), (0 : ℤ)), "")]
      = ([(((0 : ℤ), (0 : ℤ)), "")] : List (Pt × String)).map (fun h =>
          (h.1, (((((stationingDict [⟨1, "00+05", ((0 : ℤ), (2 : ℤ))⟩]).filter
              (fun kv => cascadeHits within1 within1 [⟨1, "00+05", ((0 : ℤ), (2 : ℤ))⟩]
                [((0 : ℤ), (1 : ℤ))] kv.1 h.1)).getLast?).map Prod.snd).getD h.2))) :=
  selectionpaluza_last_writer within1 within1 [⟨1, "00+05", ((0 : ℤ), (2 : ℤ))⟩]
    [((0 : ℤ), (1 : ℤ))] [(((0 : ℤ), (0 : ℤ)), "")] (by decide)

/-- Claim C3 counterexample: the cascade does not process segments in
ascending SEGMENT_ID order and the highest SEGMENT_ID does not win.  The
ordering pass itself produces RouteSegments whose storage order is
(SEGMENT_ID 2, SEGMENT_ID 1) when the longer segment was inserted first
(the idOf conjuncts), and on such rows a handhole reachable from both
segments ends with the stationing of segment 1 even though segment 2 also
reaches it, so the value written by the highest SEGMENT_ID does not
survive. -/
theorem selectionpaluza_not_highest_segid :
    selectionpaluza within1 within1
        [⟨2, "00+10", ((0 : ℤ), (2 : ℤ))⟩, ⟨1, "00+05", ((1 : ℤ), (1 : ℤ))⟩]
        [((0 : ℤ), (1 : ℤ))] [(((0 : ℤ), (0 : ℤ)), "")]
      = [(((0 : ℤ), (0 : ℤ)), "00+05")] ∧
    cascadeHits within1 within1
        [⟨2, "00+10", ((0 : ℤ), (2 : ℤ))⟩, ⟨1, "00+05", ((1 : ℤ), (1 : ℤ))⟩]
        [((0 : ℤ), (1 : ℤ))] 2 ((0 : ℤ), (0 : ℤ)) = true ∧
    (1 : ℤ) < 2 ∧ ("00+05" : String) ≠ "00+10" ∧
    idOf [(1, 10), (2, 5)] 1 = 2 ∧ idOf [(1, 10), (2, 5)] 2 = 1 :=
  ⟨by decide, by decide, by decide, by decide, by decide, by decide⟩

/-- Lexicographic comparison of character lists by code point: the text
ordering a geodatabase ORDER BY applies to a STATIONING text field. -/
def charListLe : List Char → List Char → Bool
  | [], _ => true
  | _ :: _, [] => false
  | a :: as, b :: bs =>
      if a.toNat < b.toNat then true
      else if b.toNat < a.toNat then false
      else charListLe as bs

theorem charListLe_cons_iff (a b : Char) (as bs : List Char) :
    charListLe (a :: as) (b :: bs) = true
      ↔ a.toNat < b.toNat ∨ (a.toNat = b.toNat ∧ charListLe as bs = true) := by
  by_cases h1 : a.toNat < b.toNat
  · simp [charListLe, h1]
  · by_cases h2 : b.toNat < a.toNat
    · simp only [charListLe, if_neg h1, if_pos h2]
      constructor
      · intro h; exact Bool.noConfusion h
      · rintro (h | ⟨h, _⟩) <;> omega
    · have he : a.toNat = b.toNat := by omega
      simp [charListLe, h1, h2, he]

theorem charListLe_total : ∀ as bs, charListLe as bs = true ∨ charListLe bs as = true := by
  intro as
  induction as with
  | nil => intro bs; exact Or.inl rfl
  | cons a as ih =>
      intro bs
      cases bs with
      | nil => exact Or.inr rfl
      | cons b bs =>
          rw [charListLe_cons_iff, charListLe_cons_iff]
          rcases Nat.lt_trichotomy a.toNat b.toNat with h | h | h
          · exact Or.inl (Or.inl h)
          · rcases ih bs with h2 | h2
            · exact Or.inl (Or.inr ⟨h, h2⟩)
            · exact Or.inr (Or.inr ⟨h.symm, h2⟩)
          · exact Or.inr (Or.inl h)

theorem charListLe_trans : ∀ as bs cs, charListLe as bs = true →
    charListLe bs cs = true → charListLe as cs = true := by
  intro as
  induction as with
  | nil => intro bs cs _ _; rfl
  | cons a as ih =>
      intro bs cs hab hbc
      cases bs with
      | nil => exact absurd hab (by simp [charListLe])
      | cons b bs =>
          cases cs with
          | nil => exact absurd hbc (by simp [charListLe])
          | cons c cs =>
              rw [charListLe_cons_iff] at hab hbc ⊢
              rcases hab with h1 | ⟨h1, h1r⟩ <;> rcases hbc with h2 | ⟨h2, h2r⟩
              · exact Or.inl (by omega)
              · exact Or.inl (by omega)
              · exact Or.inl (by omega)
              · exact Or.inr ⟨by omega, ih bs cs h1r h2r⟩

/-- ORDER BY STATIONING ASC of the source: ascending lexicographic order on
the label text of a feature. -/
def stationTextLe {γ : Type} (a b : γ × String) : Prop :=
  charListLe a.2.data b.2.data = true

instance {γ : Type} : DecidableRel (stationTextLe (γ := γ)) :=
  fun a b => inferInstanceAs (Decidable (charListLe a.2.data b.2.data = true))

instance {γ : Type} : IsTotal (γ × String) stationTextLe :=
  ⟨fun a b => charListLe_total a.2.data b.2.data⟩

instance {γ : Type} : IsTrans (γ × String) stationTextLe :=
  ⟨fun _ _ _ hab hbc => charListLe_trans _ _ _ hab hbc⟩

/-- The sorted read of the authoritative small collection performed by the
SearchCursor of transfer_attributes_from_small_to_large with the sql clause
ORDER BY STATIONING ASC. -/
def sortByStationing {γ : Type} (small : List (γ × String)) : List (γ × String) :=
  List.insertionSort stationTextLe small

/-- transfer_attributes_from_small_to_large from Stationizer_v1.py lines
296-347: read the small features ascending by STATIONING text; for each
one select the intersecting large features and overwrite their STATIONING
with the current value, clearing the selection between iterations (an
empty selection updates nothing). -/
def transfer_attributes_from_small_to_large {γs γl : Type}
    (intersects : γs → γl → Bool) (small : List (γs × String))
    (large : List (γl × String)) : List (γl × String) :=
  (sortByStationing small).foldl (fun lg s =>
    lg.map (fun t => if intersects s.1 t.1 then (t.1, s.2) else t)) large

/-- Claim C9: the generalized transfer iterates the authoritative features
ascending in lexicographic order of the STATIONING text; that text order
disagrees with numeric distance order once the hundreds component has three
digits (100+00 sorts strictly before 99+00 while 10000 is the larger
distance), every overlapped target keeps the value of the last intersecting
feature in text order, and on the concrete overlap the surviving writer is
the feature with the smaller distance-along-route. -/
theorem transfer_small_to_large_text_order :
    (∀ (γ : Type) (small : List (γ × String)),
      List.Sorted stationTextLe (sortByStationing small)) ∧
    charListLe "100+00".data "99+00".data = true ∧
    charListLe "99+00".data "100+00".data = false ∧
    format_station 9900 = "99+00" ∧ format_station 10000 = "100+00" ∧
    (9900 : ℚ) < 10000 ∧
    (∀ (γs γl : Type) (intersects : γs → γl → Bool) (small : List (γs × String))
        (large : List (γl × String)),
      transfer_attributes_from_small_to_large intersects small large
        = large.map (fun t =>
            (t.1, ((((sortByStationing small).filter
                (fun s => intersects s.1 t.1)).getLast?).map Prod.snd).getD t.2))) ∧
    sortByStationing [((1 : ℤ), "99+00"), (2, "100+00")]
      = [(2, "100+00"), (1, "99+00")] ∧
    transfer_attributes_from_small_to_large (fun (_ : ℤ) (_ : ℤ) => true)
        [((1 : ℤ), "99+00"), (2, "100+00")] [((0 : ℤ), "")]
      = [(0, "99+00")] := by
  refine ⟨fun γ small => List.sorted_insertionSort _ _, by decide, by decide, by decide,
    by decide, by decide, ?_, by decide, by decide⟩
  intro γs γl intersects small large
  have h1 := foldl_map_comm
    (fun (s : γs × String) (t : γl × String) =>
      if intersects s.1 t.1 then (t.1, s.2) else t) (sortByStationing small) large
  refine Eq.trans h1 ?_
  apply List.map_congr_left
  intro t _
  exact overwrite_last (fun (s : γs × String) (t1 : γl) => intersects s.1 t1)
    (fun s => s.2) (sortByStationing small) t.1 t.2
